import Mathlib

/-!
Shallow embedding of the from-scratch `DecisionTreeClassifier` found in
`decisiontree-checkpoint.ipynb` (classes `Node` and `DecisionTreeClassifier`:
`entropy`, `information_gain`, `best_split`, `build_tree`, `fit`,
`predict_single`, `predict`).

Modelling conventions:
* a feature matrix `X` is a list of rows of rationals (numpy float values are
  modelled exactly as rationals), a label vector `y` is a list of integers;
* numpy exceptions are modelled by `Except PyErr`: `np.argmax` on an empty
  array and `np.bincount` on negative input raise `ValueError`, out-of-range
  indexing raises `IndexError`;
* entropy and information gain are real-valued (`Real.logb 2` for `np.log2`);
* `np.unique` returns the distinct values in ascending order, modelled by
  `List.dedup` followed by `List.insertionSort`.
-/

namespace DT

/-- Errors that can surface at the component boundary.  The first three are
the numpy exceptions the notebook code can actually raise; the last two are
the error classes named by the specification (`InvalidDatasetError`,
`InputDimensionError`), which no code in the notebook defines or raises. -/
inductive PyErr where
  | valueErrorEmptyArgmax
  | valueErrorNegativeBincount
  | indexError
  | invalidDataset
  | inputDimension
  deriving DecidableEq

abbrev Row := List ℚ
abbrev Mat := List Row
abbrev Labels := List ℤ

/-- The tree node: the Python `Node` object is a tagged union in practice
(`value is not None` marks a leaf), embedded as an inductive type.  A decision
node stores `feature_index`, `threshold`, `info_gain` and owns two children. -/
inductive Node where
  | leaf (value : ℤ)
  | node (feature_index : ℕ) (threshold : ℚ) (info_gain : ℝ)
      (left : Node) (right : Node)

/-- Model of `np.unique`: distinct values in ascending order. -/
def uniqueSorted (l : List ℚ) : List ℚ :=
  List.insertionSort (· ≤ ·) l.dedup

/-- Column `f` of `X` (`X[:, f]`); rows are assumed rectangular where it
matters, out-of-range reads default to `0`. -/
def colF (X : Mat) (f : ℕ) : List ℚ :=
  X.map (fun r => r.getD f 0)

/-- The feature count `n_features = X.shape[1]`. -/
def nFeatures (X : Mat) : ℕ :=
  (X.headD []).length

/-- The boolean mask `X[:, f] <= t` applied to a row. -/
def maskL (f : ℕ) (t : ℚ) (r : Row) : Bool :=
  decide (r.getD f 0 ≤ t)

/-- Left partition `y[left_mask]`: labels of the rows whose `f`-th entry is `≤ t`. -/
def partL (X : Mat) (y : Labels) (f : ℕ) (t : ℚ) : Labels :=
  ((X.zip y).filter (fun p => maskL f t p.1)).map Prod.snd

/-- Right partition `y[right_mask]` (`right_mask = ~left_mask`). -/
def partR (X : Mat) (y : Labels) (f : ℕ) (t : ℚ) : Labels :=
  ((X.zip y).filter (fun p => ! maskL f t p.1)).map Prod.snd

/-- Left row partition `X[left_mask]`. -/
def xpartL (X : Mat) (f : ℕ) (t : ℚ) : Mat :=
  X.filter (maskL f t)

/-- Right row partition `X[right_mask]`. -/
def xpartR (X : Mat) (f : ℕ) (t : ℚ) : Mat :=
  X.filter (fun r => ! maskL f t r)

/-- Model of `DecisionTreeClassifier.entropy`: iterates over `np.unique(y)` and sums
`-p * log2 p` for the empirical proportion `p` of each class present.  The
sum is over the distinct labels of `y` (`List.dedup`; the iteration order of
`np.unique` is ascending, which does not affect the sum). -/
noncomputable def entropy (y : Labels) : ℝ :=
  (y.dedup.map (fun cls =>
    -(((y.count cls : ℝ) / (y.length : ℝ)) *
      Real.logb 2 ((y.count cls : ℝ) / (y.length : ℝ))))).sum

/-- Model of `DecisionTreeClassifier.information_gain`. -/
noncomputable def information_gain (parent left_child right_child : Labels) : ℝ :=
  entropy parent -
    (((left_child.length : ℝ) / (parent.length : ℝ)) * entropy left_child +
     ((right_child.length : ℝ) / (parent.length : ℝ)) * entropy right_child)

/-- The dictionary `best_split` returns in the Python code. -/
structure Split where
  feature_index : ℕ
  threshold : ℚ
  info_gain : ℝ

/-- The `(feature_index, threshold)` pairs enumerated by the two nested loops
of `best_split`: features in ascending order, and for each feature the
distinct observed values of its column in ascending order (`np.unique`). -/
def candidates (X : Mat) : List (ℕ × ℚ) :=
  (List.range (nFeatures X)).flatMap
    (fun f => (uniqueSorted (colF X f)).map (fun t => (f, t)))

/-- One iteration of the candidate loop in `best_split`: skip the candidate if
either partition is empty, otherwise update `(best_gain, best_split)` when the
gain strictly exceeds the best so far. -/
noncomputable def bsStep (X : Mat) (y : Labels) (acc : ℝ × Option Split)
    (c : ℕ × ℚ) : ℝ × Option Split :=
  if (partL X y c.1 c.2).length = 0 ∨ (partR X y c.1 c.2).length = 0 then acc
  else if acc.1 < information_gain y (partL X y c.1 c.2) (partR X y c.1 c.2) then
    (information_gain y (partL X y c.1 c.2) (partR X y c.1 c.2),
     some ⟨c.1, c.2, information_gain y (partL X y c.1 c.2) (partR X y c.1 c.2)⟩)
  else acc

/-- Model of `DecisionTreeClassifier.best_split`: fold the candidate loop starting from
`best_gain = -1`, `best_split = None`. -/
noncomputable def best_split (X : Mat) (y : Labels) : Option Split :=
  ((candidates X).foldl (bsStep X y) (-1, none)).2

/-- Model of `np.bincount` for non-negative data: occurrence counts of `0..max`. -/
def bincount (l : List ℕ) : List ℕ :=
  (List.range (l.foldr max 0 + 1)).map (fun v => l.count v)

/-- Model of `np.argmax(np.bincount(y))`, the leaf value computation of `build_tree`:
`np.bincount` raises `ValueError` on negative input, `np.argmax` raises
`ValueError` on an empty array (the bincount of an empty `y` is empty); the
index of the first maximal count is the predicted class. -/
def leafValue (y : Labels) : Except PyErr ℤ :=
  if y.isEmpty then .error .valueErrorEmptyArgmax
  else if y.any (fun v => decide (v < 0)) then .error .valueErrorNegativeBincount
  else
    let bc := bincount (y.map Int.toNat)
    .ok (Int.ofNat (bc.indexOf (bc.foldr max 0)))

/-- The stopping test of `build_tree`:
`(max_depth is not None and depth >= max_depth) or n_samples <
min_samples_split or n_classes == 1`, with `n_samples = X.shape[0]` and
`n_classes = len(np.unique(y))`. -/
def stopB (md : Option ℕ) (mss : ℕ) (X : Mat) (y : Labels) (depth : ℕ) : Bool :=
  (match md with
   | some d => decide (d ≤ depth)
   | none => false) ||
  decide (X.length < mss) || decide (y.dedup.length = 1)

/-- A candidate `(f, t)` is viable when neither partition of `y` is empty
(the `continue` guard of `best_split` does not fire). -/
abbrev viable (X : Mat) (y : Labels) (f : ℕ) (t : ℚ) : Prop :=
  partL X y f t ≠ [] ∧ partR X y f t ≠ []

theorem bsFold_some_viable (X : Mat) (y : Labels) :
    ∀ (cs : List (ℕ × ℚ)) (acc : ℝ × Option Split),
      (∀ s, acc.2 = some s → viable X y s.feature_index s.threshold) →
      ∀ s, (cs.foldl (bsStep X y) acc).2 = some s →
        viable X y s.feature_index s.threshold := by
  intro cs
  induction cs with
  | nil => exact fun acc hacc s hs => hacc s hs
  | cons c cs ih =>
    intro acc hacc s hs
    refine ih (bsStep X y acc c) ?_ s hs
    intro s' hs'
    unfold bsStep at hs'
    split at hs'
    · exact hacc s' hs'
    · rename_i hne
      split at hs'
      · cases hs'
        push_neg at hne
        refine ⟨?_, ?_⟩
        · simpa [List.length_eq_zero] using hne.1
        · simpa [List.length_eq_zero] using hne.2
      · exact hacc s' hs'

theorem best_split_viable {X : Mat} {y : Labels} {s : Split}
    (h : best_split X y = some s) : viable X y s.feature_index s.threshold := by
  unfold best_split at h
  exact bsFold_some_viable X y (candidates X) (-1, none)
    (fun s' hs' => by cases hs') s h

theorem xpartR_ne_nil_of_partR {X : Mat} {y : Labels} {f : ℕ} {t : ℚ}
    (h : partR X y f t ≠ []) : xpartR X f t ≠ [] := by
  unfold partR at h
  rcases List.exists_mem_of_ne_nil _ h with ⟨b, hb⟩
  rcases List.mem_map.1 hb with ⟨p, hp, -⟩
  rcases List.mem_filter.1 hp with ⟨hpz, hq⟩
  rcases p with ⟨a, b'⟩
  have haX : a ∈ X := (List.of_mem_zip hpz).1
  exact List.ne_nil_of_mem (List.mem_filter.2 ⟨haX, hq⟩)

theorem xpartL_ne_nil_of_partL {X : Mat} {y : Labels} {f : ℕ} {t : ℚ}
    (h : partL X y f t ≠ []) : xpartL X f t ≠ [] := by
  unfold partL at h
  rcases List.exists_mem_of_ne_nil _ h with ⟨b, hb⟩
  rcases List.mem_map.1 hb with ⟨p, hp, -⟩
  rcases List.mem_filter.1 hp with ⟨hpz, hq⟩
  rcases p with ⟨a, b'⟩
  have haX : a ∈ X := (List.of_mem_zip hpz).1
  exact List.ne_nil_of_mem (List.mem_filter.2 ⟨haX, hq⟩)

theorem filter_length_add {α : Type} (p : α → Bool) (l : List α) :
    (l.filter p).length + (l.filter (fun a => ! p a)).length = l.length := by
  induction l with
  | nil => rfl
  | cons a l ih =>
    cases h : p a <;> simp [List.filter_cons, h] <;> omega

theorem xpart_length_add (X : Mat) (f : ℕ) (t : ℚ) :
    (xpartL X f t).length + (xpartR X f t).length = X.length := by
  unfold xpartL xpartR
  exact filter_length_add (maskL f t) X

theorem xpartL_length_lt {X : Mat} {f : ℕ} {t : ℚ}
    (h : xpartR X f t ≠ []) : (xpartL X f t).length < X.length := by
  have hadd := xpart_length_add X f t
  have : 0 < (xpartR X f t).length := List.length_pos.2 h
  omega

theorem xpartR_length_lt {X : Mat} {f : ℕ} {t : ℚ}
    (h : xpartL X f t ≠ []) : (xpartR X f t).length < X.length := by
  have hadd := xpart_length_add X f t
  have : 0 < (xpartL X f t).length := List.length_pos.2 h
  omega

/-- Model of `DecisionTreeClassifier.build_tree`, written once, generic in what is
assembled at leaves and decision nodes, so that the tree construction
(`build_tree`) and the leaf-record instrumentation (`leafRecs`) below share
the same control flow by definition.  The Python code:
check the stopping criteria and emit a leaf; otherwise call `best_split`,
emit a leaf when it returns `None`, and otherwise partition the data by the
winning mask and recurse on each side with `depth + 1` (left first, as the
Python code does). -/
noncomputable def buildGen {α : Type} (md : Option ℕ) (mss : ℕ)
    (leafF : Mat → Labels → ℕ → Except PyErr α)
    (nodeF : ℕ → ℚ → ℝ → α → α → α)
    (X : Mat) (y : Labels) (depth : ℕ) : Except PyErr α :=
  if stopB md mss X y depth then leafF X y depth
  else
    match hbs : best_split X y with
    | none => leafF X y depth
    | some s => do
        let l ← buildGen md mss leafF nodeF
          (xpartL X s.feature_index s.threshold)
          (partL X y s.feature_index s.threshold) (depth + 1)
        let r ← buildGen md mss leafF nodeF
          (xpartR X s.feature_index s.threshold)
          (partR X y s.feature_index s.threshold) (depth + 1)
        pure (nodeF s.feature_index s.threshold s.info_gain l r)
termination_by X.length
decreasing_by
  · exact xpartL_length_lt (xpartR_ne_nil_of_partR (best_split_viable hbs).2)
  · exact xpartR_length_lt (xpartL_ne_nil_of_partL (best_split_viable hbs).1)

/-- Model of `DecisionTreeClassifier.build_tree`: the leaf value is
`np.argmax(np.bincount(y))`, a decision node carries the winning split and
its two recursively built children. -/
noncomputable def build_tree (md : Option ℕ) (mss : ℕ)
    (X : Mat) (y : Labels) (depth : ℕ) : Except PyErr Node :=
  buildGen md mss (fun _ ys _ => (leafValue ys).map Node.leaf) Node.node X y depth

/-- Model of `DecisionTreeClassifier.fit`: build from the root at depth `0` (the
`n_classes` / `n_features` attributes the Python `fit` records are unused by
construction and prediction and are not modelled). -/
noncomputable def fit (md : Option ℕ) (mss : ℕ) (X : Mat) (y : Labels) :
    Except PyErr Node :=
  build_tree md mss X y 0

/-- Instrumented clone of `build_tree` (same `buildGen` control flow): at
every leaf it records the data subset that reached the leaf together with the
leaf depth, and a decision node concatenates the records of its children. -/
noncomputable def leafRecs (md : Option ℕ) (mss : ℕ)
    (X : Mat) (y : Labels) (depth : ℕ) :
    Except PyErr (List (Mat × Labels × ℕ)) :=
  buildGen md mss (fun Xs ys d => (leafValue ys).map (fun _ => [(Xs, ys, d)]))
    (fun _ _ _ l r => l ++ r) X y depth

/-- Model of `DecisionTreeClassifier.predict_single`: walk the tree; a leaf returns
its value; a decision node reads `x[feature_index]` (an `IndexError` when the
index is out of range of the query vector, as in numpy) and descends left on
`<= threshold`, right otherwise. -/
def predict_single (x : Row) : Node → Except PyErr ℤ
  | .leaf v => .ok v
  | .node f t _ l r =>
    if f < x.length then
      if x.getD f 0 ≤ t then predict_single x l
      else predict_single x r
    else .error .indexError

/-- Model of `DecisionTreeClassifier.predict`: row-wise `predict_single` from the
root. -/
def predict (root : Node) (X : Mat) : Except PyErr (List ℤ) :=
  X.mapM (fun x => predict_single x root)

/-- Depth of a tree: a leaf has depth `0`, a decision node one more than the
deeper child.  The maximum leaf depth of the tree. -/
def treeDepth : Node → ℕ
  | .leaf _ => 0
  | .node _ _ _ l r => max (treeDepth l) (treeDepth r) + 1

/-! ### Entropy: basic facts -/

theorem length_pos_real {y : Labels} (hy : y ≠ []) : (0 : ℝ) < (y.length : ℝ) := by
  exact_mod_cast List.length_pos.2 hy

theorem count_pos_of_mem_dedup {y : Labels} {c : ℤ} (h : c ∈ y.dedup) :
    0 < y.count c :=
  List.count_pos_iff.2 (List.mem_dedup.1 h)

/-- Each summand of `entropy` is non-negative: the proportion of a class that
is present lies in `(0, 1]`, where `log2` is non-positive. -/
theorem entropy_term_nonneg {y : Labels} {c : ℤ} (hc : c ∈ y.dedup) :
    0 ≤ -(((y.count c : ℝ) / (y.length : ℝ)) *
      Real.logb 2 ((y.count c : ℝ) / (y.length : ℝ))) := by
  have hy : y ≠ [] := by
    intro h
    subst h
    simp at hc
  have hlen := length_pos_real hy
  have hcount : (0 : ℝ) < (y.count c : ℝ) := by
    exact_mod_cast count_pos_of_mem_dedup hc
  have hp0 : (0 : ℝ) < (y.count c : ℝ) / (y.length : ℝ) := div_pos hcount hlen
  have hp1 : (y.count c : ℝ) / (y.length : ℝ) ≤ 1 := by
    rw [div_le_one hlen]
    exact_mod_cast List.count_le_length c y
  have hlog : Real.logb 2 ((y.count c : ℝ) / (y.length : ℝ)) ≤ 0 :=
    Real.logb_nonpos one_lt_two hp0.le hp1
  nlinarith

/-- The entropy evaluator returns a non-negative number. -/
theorem entropy_nonneg (y : Labels) : 0 ≤ entropy y := by
  unfold entropy
  apply List.sum_nonneg
  intro x hx
  rcases List.mem_map.1 hx with ⟨c, hc, rfl⟩
  exact entropy_term_nonneg hc

/-- With a single distinct class the proportion is `1` and the entropy is `0`
(`log2 1 = 0`; no `log2 0` term is ever formed since the sum ranges over the
classes present). -/
theorem entropy_of_single_class {y : Labels} {c : ℤ} (hd : y.dedup = [c]) :
    entropy y = 0 := by
  have hall : ∀ a ∈ y, a = c := by
    intro a ha
    have : a ∈ y.dedup := List.mem_dedup.2 ha
    rw [hd] at this
    simpa using this
  have hcount : y.count c = y.length := by
    rw [List.count_eq_length]
    intro a ha
    exact (hall a ha).symm
  have hy : y ≠ [] := by
    intro h
    rw [h] at hd
    simp at hd
  unfold entropy
  rw [hd]
  have hlen := length_pos_real hy
  simp [hcount, div_self hlen.ne.symm]

/-! ### Entropy as a `Finset` sum of `negMulLog`, and non-negativity of the
information gain of a partition -/

/-- Entropy restated over the finite set of classes, in natural-log scale. -/
noncomputable def entropyF (y : Labels) : ℝ :=
  ∑ c ∈ y.toFinset, Real.negMulLog ((y.count c : ℝ) / (y.length : ℝ))

theorem list_map_sum_div (l : List ℤ) (f : ℤ → ℝ) (d : ℝ) :
    (l.map (fun c => f c / d)).sum = (l.map f).sum / d := by
  induction l with
  | nil => simp
  | cons a l ih => simp [ih, add_div]

theorem dedup_toFinset (y : Labels) : y.dedup.toFinset = y.toFinset := by
  ext c
  simp [List.mem_toFinset, List.mem_dedup]

theorem entropy_eq_entropyF (y : Labels) : entropy y = entropyF y / Real.log 2 := by
  unfold entropy entropyF
  rw [← dedup_toFinset, List.sum_toFinset _ (List.nodup_dedup y),
    ← list_map_sum_div]
  refine congrArg List.sum (List.map_congr_left ?_)
  intro c _
  unfold Real.negMulLog Real.logb
  ring

theorem negMulLog_two_point {w w' a b : ℝ} (hw : 0 ≤ w) (hw' : 0 ≤ w')
    (hsum : w + w' = 1) (ha : 0 ≤ a) (hb : 0 ≤ b) :
    w * Real.negMulLog a + w' * Real.negMulLog b ≤
      Real.negMulLog (w * a + w' * b) := by
  have h := Real.concaveOn_negMulLog.2 (Set.mem_Ici.2 ha) (Set.mem_Ici.2 hb)
    hw hw' hsum
  simpa using h

theorem toFinset_subset_of_count {p l r : Labels}
    (hcount : ∀ c, p.count c = l.count c + r.count c) :
    l.toFinset ⊆ p.toFinset := by
  intro c hc
  rw [List.mem_toFinset] at hc ⊢
  have h1 : 0 < l.count c := List.count_pos_iff.2 hc
  have h2 : 0 < p.count c := by
    rw [hcount c]
    omega
  exact List.count_pos_iff.1 h2

theorem entropyF_over_parent {p l : Labels} (hsub : l.toFinset ⊆ p.toFinset) :
    entropyF l =
      ∑ c ∈ p.toFinset, Real.negMulLog ((l.count c : ℝ) / (l.length : ℝ)) := by
  unfold entropyF
  refine Finset.sum_subset hsub ?_
  intro c _ hcl
  have hc0 : l.count c = 0 := by
    by_contra h
    exact hcl (List.mem_toFinset.2 (List.count_pos_iff.1 (Nat.pos_of_ne_zero h)))
  simp [hc0]

theorem weighted_entropyF_le {p l r : Labels}
    (hcount : ∀ c, p.count c = l.count c + r.count c)
    (hlen : p.length = l.length + r.length)
    (hl : l ≠ []) (hr : r ≠ []) :
    ((l.length : ℝ) / (p.length : ℝ)) * entropyF l +
      ((r.length : ℝ) / (p.length : ℝ)) * entropyF r ≤ entropyF p := by
  have hlpos := length_pos_real hl
  have hrpos := length_pos_real hr
  have hppos : (0 : ℝ) < (p.length : ℝ) := by
    rw [hlen]
    push_cast
    linarith
  have hsubl : l.toFinset ⊆ p.toFinset := toFinset_subset_of_count hcount
  have hsubr : r.toFinset ⊆ p.toFinset := by
    have h : ∀ c, p.count c = r.count c + l.count c := by
      intro c
      rw [hcount c]
      omega
    exact toFinset_subset_of_count h
  have step : ∀ c ∈ p.toFinset,
      ((l.length : ℝ) / (p.length : ℝ)) *
          Real.negMulLog ((l.count c : ℝ) / (l.length : ℝ)) +
        ((r.length : ℝ) / (p.length : ℝ)) *
          Real.negMulLog ((r.count c : ℝ) / (r.length : ℝ)) ≤
        Real.negMulLog ((p.count c : ℝ) / (p.length : ℝ)) := by
    intro c _
    have harg : ((l.length : ℝ) / (p.length : ℝ)) * ((l.count c : ℝ) / (l.length : ℝ)) +
        ((r.length : ℝ) / (p.length : ℝ)) * ((r.count c : ℝ) / (r.length : ℝ)) =
        (p.count c : ℝ) / (p.length : ℝ) := by
      rw [hcount c]
      push_cast
      field_simp
      ring
    have hsum : ((l.length : ℝ) / (p.length : ℝ)) + ((r.length : ℝ) / (p.length : ℝ)) = 1 := by
      rw [div_add_div_same, hlen]
      push_cast
      exact div_self (by linarith)
    have key := negMulLog_two_point (div_nonneg hlpos.le hppos.le)
      (div_nonneg hrpos.le hppos.le) hsum
      (div_nonneg (Nat.cast_nonneg (l.count c)) hlpos.le)
      (div_nonneg (Nat.cast_nonneg (r.count c)) hrpos.le)
    rw [harg] at key
    exact key
  calc ((l.length : ℝ) / (p.length : ℝ)) * entropyF l +
        ((r.length : ℝ) / (p.length : ℝ)) * entropyF r
      = ∑ c ∈ p.toFinset,
          (((l.length : ℝ) / (p.length : ℝ)) *
            Real.negMulLog ((l.count c : ℝ) / (l.length : ℝ)) +
          ((r.length : ℝ) / (p.length : ℝ)) *
            Real.negMulLog ((r.count c : ℝ) / (r.length : ℝ))) := by
        rw [entropyF_over_parent hsubl, entropyF_over_parent hsubr,
          Finset.mul_sum, Finset.mul_sum, Finset.sum_add_distrib]
    _ ≤ ∑ c ∈ p.toFinset, Real.negMulLog ((p.count c : ℝ) / (p.length : ℝ)) :=
        Finset.sum_le_sum step
    _ = entropyF p := rfl

/-- The information gain of any two-sided partition of the labels is
non-negative (concavity of `x ↦ -x log x`). -/
theorem information_gain_nonneg {p l r : Labels}
    (hcount : ∀ c, p.count c = l.count c + r.count c)
    (hlen : p.length = l.length + r.length)
    (hl : l ≠ []) (hr : r ≠ []) :
    0 ≤ information_gain p l r := by
  unfold information_gain
  rw [entropy_eq_entropyF, entropy_eq_entropyF, entropy_eq_entropyF]
  have hlog2 : (0 : ℝ) < Real.log 2 := Real.log_pos one_lt_two
  have key := weighted_entropyF_le hcount hlen hl hr
  have expand : entropyF p / Real.log 2 -
      (((l.length : ℝ) / (p.length : ℝ)) * (entropyF l / Real.log 2) +
       ((r.length : ℝ) / (p.length : ℝ)) * (entropyF r / Real.log 2)) =
      (entropyF p - (((l.length : ℝ) / (p.length : ℝ)) * entropyF l +
        ((r.length : ℝ) / (p.length : ℝ)) * entropyF r)) / Real.log 2 := by
    ring
  rw [expand]
  exact div_nonneg (by linarith) hlog2.le

/-! ### Partition bookkeeping: the two masked partitions split counts and
lengths of the label vector exactly -/

theorem filterMask_length (l : List (Row × ℤ)) (f : ℕ) (t : ℚ) :
    (l.filter (fun p => maskL f t p.1)).length +
      (l.filter (fun p => ! maskL f t p.1)).length = l.length := by
  induction l with
  | nil => rfl
  | cons a l ih =>
    cases h : maskL f t a.1 <;> simp [List.filter_cons, h] <;> omega

theorem filterMask_countP (l : List (Row × ℤ)) (f : ℕ) (t : ℚ)
    (pp : Row × ℤ → Bool) :
    (l.filter (fun p => maskL f t p.1)).countP pp +
      (l.filter (fun p => ! maskL f t p.1)).countP pp = l.countP pp := by
  induction l with
  | nil => rfl
  | cons a l ih =>
    cases h : maskL f t a.1 <;> cases hp : pp a <;>
      simp [List.filter_cons, List.countP_cons, h, hp] <;> omega

theorem count_part_add (X : Mat) (y : Labels) (f : ℕ) (t : ℚ)
    (hxy : y.length ≤ X.length) (c : ℤ) :
    y.count c = (partL X y f t).count c + (partR X y f t).count c := by
  have hz : (X.zip y).map Prod.snd = y := List.map_snd_zip X y hxy
  unfold partL partR
  rw [List.count_eq_countP, List.count_eq_countP, List.count_eq_countP,
    List.countP_map, List.countP_map]
  conv_lhs => rw [← hz]
  rw [List.countP_map]
  exact (filterMask_countP (X.zip y) f t _).symm

theorem length_part_add (X : Mat) (y : Labels) (f : ℕ) (t : ℚ)
    (hxy : y.length ≤ X.length) :
    y.length = (partL X y f t).length + (partR X y f t).length := by
  unfold partL partR
  rw [List.length_map, List.length_map, filterMask_length, List.length_zip]
  omega

/-- The information gain `best_split` computes for the candidate `(f, t)`. -/
noncomputable def infoGainAt (X : Mat) (y : Labels) (f : ℕ) (t : ℚ) : ℝ :=
  information_gain y (partL X y f t) (partR X y f t)

/-- Any viable candidate has non-negative information gain. -/
theorem infoGainAt_nonneg {X : Mat} {y : Labels} {f : ℕ} {t : ℚ}
    (hxy : y.length ≤ X.length) (hv : viable X y f t) :
    0 ≤ infoGainAt X y f t :=
  information_gain_nonneg (count_part_add X y f t hxy)
    (length_part_add X y f t hxy) hv.1 hv.2

/-! ### The candidate loop of `best_split`: full loop invariant -/

/-- Invariant of the `best_split` loop after processing the candidates in
`done` (in order): if no split is held, `best_gain` is still `-1` and no
processed candidate was viable; if a split is held, `best_gain` equals its
gain, the split is a viable processed candidate whose gain is its own
`infoGainAt`, the viable candidates processed strictly before it have
strictly smaller gain (first-wins tie-break), and the viable ones after it
have gain at most its gain. -/
def BSInv (X : Mat) (y : Labels) (done : List (ℕ × ℚ))
    (acc : ℝ × Option Split) : Prop :=
  (acc.2 = none → acc.1 = -1 ∧ ∀ c ∈ done, ¬ viable X y c.1 c.2) ∧
  (∀ s, acc.2 = some s → acc.1 = s.info_gain ∧
    ∃ pre post, done = pre ++ (s.feature_index, s.threshold) :: post ∧
      viable X y s.feature_index s.threshold ∧
      s.info_gain = infoGainAt X y s.feature_index s.threshold ∧
      (∀ c ∈ pre, viable X y c.1 c.2 → infoGainAt X y c.1 c.2 < s.info_gain) ∧
      (∀ c ∈ post, viable X y c.1 c.2 → infoGainAt X y c.1 c.2 ≤ s.info_gain))

theorem not_viable_of_empty {X : Mat} {y : Labels} {f : ℕ} {t : ℚ}
    (h : (partL X y f t).length = 0 ∨ (partR X y f t).length = 0) :
    ¬ viable X y f t := by
  intro hv
  rcases h with h | h
  · exact hv.1 (List.length_eq_zero.1 h)
  · exact hv.2 (List.length_eq_zero.1 h)

theorem viable_of_not_empty {X : Mat} {y : Labels} {f : ℕ} {t : ℚ}
    (h : ¬ ((partL X y f t).length = 0 ∨ (partR X y f t).length = 0)) :
    viable X y f t := by
  push_neg at h
  exact ⟨fun he => h.1 (by rw [he]; rfl), fun he => h.2 (by rw [he]; rfl)⟩

theorem bsStep_inv {X : Mat} {y : Labels} {done : List (ℕ × ℚ)}
    {acc : ℝ × Option Split} {c : ℕ × ℚ} (hxy : y.length ≤ X.length)
    (h : BSInv X y done acc) :
    BSInv X y (done ++ [c]) (bsStep X y acc c) := by
  unfold bsStep
  by_cases hemp : (partL X y c.1 c.2).length = 0 ∨ (partR X y c.1 c.2).length = 0
  · rw [if_pos hemp]
    have hnv := not_viable_of_empty hemp
    refine ⟨?_, ?_⟩
    · intro hn
      obtain ⟨h1, h2⟩ := h.1 hn
      refine ⟨h1, ?_⟩
      intro d hd
      rcases List.mem_append.1 hd with hd | hd
      · exact h2 d hd
      · have : d = c := by simpa using hd
        subst this
        exact hnv
    · intro s hs
      obtain ⟨hg, pre, post, hdone, hv', hgain, hpre, hpost⟩ := h.2 s hs
      refine ⟨hg, pre, post ++ [c], by rw [hdone]; simp, hv', hgain, hpre, ?_⟩
      intro d hd hvd
      rcases List.mem_append.1 hd with hd | hd
      · exact hpost d hd hvd
      · have : d = c := by simpa using hd
        subst this
        exact absurd hvd hnv
  · rw [if_neg hemp]
    have hvc := viable_of_not_empty hemp
    by_cases hlt :
        acc.1 < information_gain y (partL X y c.1 c.2) (partR X y c.1 c.2)
    · rw [if_pos hlt]
      refine ⟨?_, ?_⟩
      · intro hn
        cases hn
      intro s hs
      have hseq :
          s = ⟨c.1, c.2, information_gain y (partL X y c.1 c.2) (partR X y c.1 c.2)⟩ := by
        cases hs
        rfl
      subst hseq
      refine ⟨rfl, done, [], by simp, hvc, rfl, ?_, by simp⟩
      intro d hd hvd
      show infoGainAt X y d.1 d.2 < infoGainAt X y c.1 c.2
      rcases hacc : acc.2 with _ | s0
      · obtain ⟨h1, h2⟩ := h.1 hacc
        exact absurd hvd (h2 d hd)
      · obtain ⟨hg, pre, post, hdone, hv0, hgain0, hpre, hpost⟩ := h.2 s0 hacc
        have hlt' : s0.info_gain < infoGainAt X y c.1 c.2 := by
          rw [← hg]
          exact hlt
        rw [hdone] at hd
        rcases List.mem_append.1 hd with hd | hd
        · exact lt_trans (hpre d hd hvd) hlt'
        · rcases List.mem_cons.1 hd with hd | hd
          · subst hd
            rw [← hgain0] at *
            exact hlt'
          · exact lt_of_le_of_lt (hpost d hd hvd) hlt'
    · rw [if_neg hlt]
      push_neg at hlt
      refine ⟨?_, ?_⟩
      · intro hn
        obtain ⟨h1, h2⟩ := h.1 hn
        exfalso
        have hge := infoGainAt_nonneg hxy hvc
        rw [h1] at hlt
        unfold infoGainAt at hge
        linarith
      · intro s hs
        obtain ⟨hg, pre, post, hdone, hv', hgain, hpre, hpost⟩ := h.2 s hs
        refine ⟨hg, pre, post ++ [c], by rw [hdone]; simp, hv', hgain, hpre, ?_⟩
        intro d hd hvd
        rcases List.mem_append.1 hd with hd | hd
        · exact hpost d hd hvd
        · have : d = c := by simpa using hd
          subst this
          show infoGainAt X y d.1 d.2 ≤ s.info_gain
          rw [← hg]
          exact hlt

theorem bsFold_inv {X : Mat} {y : Labels} (hxy : y.length ≤ X.length) :
    ∀ (cs done : List (ℕ × ℚ)) (acc : ℝ × Option Split),
      BSInv X y done acc →
      BSInv X y (done ++ cs) (cs.foldl (bsStep X y) acc) := by
  intro cs
  induction cs with
  | nil => intro done acc h; simpa using h
  | cons c cs ih =>
    intro done acc h
    have h' := @bsStep_inv X y done acc c hxy h
    have := ih (done ++ [c]) (bsStep X y acc c) h'
    simpa [List.append_assoc] using this

/-- The result of the whole candidate loop satisfies the invariant. -/
theorem best_split_spec (X : Mat) (y : Labels) (hxy : y.length ≤ X.length) :
    BSInv X y (candidates X) ((candidates X).foldl (bsStep X y) (-1, none)) := by
  have h0 : BSInv X y [] ((-1 : ℝ), (none : Option Split)) := by
    refine ⟨fun _ => ⟨rfl, by simp⟩, ?_⟩
    intro s hs
    cases hs
  simpa using bsFold_inv hxy (candidates X) [] (-1, none) h0

theorem foldl_skip_of_not_viable {X : Mat} {y : Labels} :
    ∀ (cs : List (ℕ × ℚ)) (acc : ℝ × Option Split),
      (∀ c ∈ cs, ¬ viable X y c.1 c.2) →
      cs.foldl (bsStep X y) acc = acc := by
  intro cs
  induction cs with
  | nil => intro acc _; rfl
  | cons c cs ih =>
    intro acc h
    have hnc := h c (by simp)
    have hemp : (partL X y c.1 c.2).length = 0 ∨ (partR X y c.1 c.2).length = 0 := by
      by_contra hh
      exact hnc (viable_of_not_empty hh)
    have hstep : bsStep X y acc c = acc := by
      unfold bsStep
      rw [if_pos hemp]
    rw [List.foldl_cons, hstep]
    exact ih acc (fun d hd => h d (List.mem_cons_of_mem c hd))

theorem mem_candidates {X : Mat} {f : ℕ} {t : ℚ} :
    (f, t) ∈ candidates X ↔ f < nFeatures X ∧ t ∈ colF X f := by
  unfold candidates uniqueSorted
  simp [List.mem_flatMap, List.mem_dedup, List.mem_range, Prod.ext_iff]

/-- Claim C2: when `best_split` returns a candidate on a well-formed subset,
its gain is non-negative and at least the gain of every other evaluated
candidate; the candidates enumerate every distinct observed value of each
feature column within the current subset, candidates with an empty partition
are rejected, and the returned candidate is the first in the
(feature, threshold) enumeration order to achieve the maximum gain (every
viable candidate enumerated before it has strictly smaller gain). -/
theorem claim_C2_chosen_gain_maximal {X : Mat} {y : Labels} {s : Split}
    (hxy : y.length = X.length) (hs : best_split X y = some s) :
    0 ≤ s.info_gain ∧
    (∀ f t, f < nFeatures X → t ∈ colF X f → viable X y f t →
        infoGainAt X y f t ≤ s.info_gain) ∧
    (∃ pre post,
        candidates X = pre ++ (s.feature_index, s.threshold) :: post ∧
        viable X y s.feature_index s.threshold ∧
        s.info_gain = infoGainAt X y s.feature_index s.threshold ∧
        (∀ c ∈ pre, viable X y c.1 c.2 →
          infoGainAt X y c.1 c.2 < s.info_gain)) := by
  have hxy' : y.length ≤ X.length := le_of_eq hxy
  have hinv := best_split_spec X y hxy'
  unfold best_split at hs
  obtain ⟨hg, pre, post, hdone, hv, hgain, hpre, hpost⟩ := hinv.2 s hs
  have hnonneg : 0 ≤ s.info_gain := by
    rw [hgain]
    exact infoGainAt_nonneg hxy' hv
  refine ⟨hnonneg, ?_, pre, post, hdone, hv, hgain, hpre⟩
  intro f t hf ht hvt
  have hmem : (f, t) ∈ candidates X := mem_candidates.2 ⟨hf, ht⟩
  rw [hdone] at hmem
  rcases List.mem_append.1 hmem with hm | hm
  · exact le_of_lt (hpre (f, t) hm hvt)
  · rcases List.mem_cons.1 hm with hm | hm
    · have hf' : f = s.feature_index := congrArg Prod.fst hm
      have ht' : t = s.threshold := congrArg Prod.snd hm
      subst hf'
      subst ht'
      rw [hgain]
    · exact hpost (f, t) hm hvt

/-- Claim C8 (amended): on a well-formed subset, `best_split` returns `None`
exactly when no candidate yields two non-empty partitions; in particular any
viable candidate — even one of zero gain — prevents a `None` result. -/
theorem claim_C8_amended_none_iff_no_viable {X : Mat} {y : Labels}
    (hxy : y.length = X.length) :
    best_split X y = none ↔ ∀ c ∈ candidates X, ¬ viable X y c.1 c.2 := by
  constructor
  · intro hn
    have hinv := best_split_spec X y (le_of_eq hxy)
    unfold best_split at hn
    exact (hinv.1 hn).2
  · intro h
    unfold best_split
    rw [foldl_skip_of_not_viable (candidates X) (-1, none) h]

/-! ### Concrete evaluations of entropy and information gain -/

theorem logb_two_half : Real.logb 2 ((1:ℝ)/2) = -1 := by
  rw [show ((1:ℝ)/2) = 2⁻¹ by norm_num, Real.logb_inv,
    Real.logb_self_eq_one one_lt_two]

theorem logb_two_third : Real.logb 2 ((1:ℝ)/3) = -Real.logb 2 3 := by
  rw [one_div, Real.logb_inv]

theorem logb_two_twothirds : Real.logb 2 ((2:ℝ)/3) = 1 - Real.logb 2 3 := by
  rw [Real.logb_div two_ne_zero three_ne_zero,
    Real.logb_self_eq_one one_lt_two]

/-- The inequality `log2 3 > 2/3`, i.e. `27 > 4`. -/
theorem logb_two_three_gt : (2:ℝ)/3 < Real.logb 2 3 := by
  have h2 : (0:ℝ) < Real.log 2 := Real.log_pos one_lt_two
  have h : Real.log 4 < Real.log 27 :=
    Real.log_lt_log (by norm_num) (by norm_num)
  have h4 : Real.log 4 = 2 * Real.log 2 := by
    rw [show (4:ℝ) = 2^2 by norm_num, Real.log_pow]
    push_cast
    ring
  have h27 : Real.log 27 = 3 * Real.log 3 := by
    rw [show (27:ℝ) = 3^3 by norm_num, Real.log_pow]
    push_cast
    ring
  rw [Real.logb, lt_div_iff₀ h2]
  nlinarith

theorem entropy_single_label (c : ℤ) : entropy [c] = 0 :=
  entropy_of_single_class (show ([c] : Labels).dedup = [c] from by simp)

theorem entropy_pair_01 : entropy [(0:ℤ), 1] = 1 := by
  have hd : ([(0:ℤ),1]).dedup = [0,1] := by decide
  unfold entropy
  rw [hd]
  norm_num [List.count_cons, List.count_nil]
  rw [logb_two_half]
  norm_num

theorem entropy_0011 : entropy [(0:ℤ), 0, 1, 1] = 1 := by
  have hd : ([(0:ℤ),0,1,1]).dedup = [0,1] := by decide
  unfold entropy
  rw [hd]
  norm_num [List.count_cons, List.count_nil]
  rw [logb_two_half]
  norm_num

theorem entropy_011 : entropy [(0:ℤ), 1, 1] = Real.logb 2 3 - 2/3 := by
  have hd : ([(0:ℤ),1,1]).dedup = [0,1] := by decide
  unfold entropy
  rw [hd]
  norm_num [List.count_cons, List.count_nil]
  rw [logb_two_third, logb_two_twothirds]
  ring

theorem entropy_001 : entropy [(0:ℤ), 0, 1] = Real.logb 2 3 - 2/3 := by
  have hd : ([(0:ℤ),0,1]).dedup = [0,1] := by decide
  unfold entropy
  rw [hd]
  norm_num [List.count_cons, List.count_nil]
  rw [logb_two_third, logb_two_twothirds]
  ring

theorem entropy_00 : entropy [(0:ℤ), 0] = 0 :=
  entropy_of_single_class (show ([(0:ℤ), 0]).dedup = [0] from by decide)

theorem entropy_11 : entropy [(1:ℤ), 1] = 0 :=
  entropy_of_single_class (show ([(1:ℤ), 1]).dedup = [1] from by decide)

theorem ig_01 : information_gain [(0:ℤ),1] [0] [1] = 1 := by
  unfold information_gain
  rw [entropy_pair_01, entropy_single_label, entropy_single_label]
  norm_num

theorem ig_00 : information_gain [(0:ℤ),0] [0] [0] = 0 := by
  unfold information_gain
  rw [entropy_00, entropy_single_label]
  norm_num

theorem ig_root0 : information_gain [(0:ℤ),0,1,1] [0] [0,1,1] =
    3/2 - 3/4 * Real.logb 2 3 := by
  unfold information_gain
  rw [entropy_0011, entropy_single_label, entropy_011]
  norm_num
  ring

theorem ig_root1 : information_gain [(0:ℤ),0,1,1] [0,0] [1,1] = 1 := by
  unfold information_gain
  rw [entropy_0011, entropy_00, entropy_11]
  norm_num

theorem ig_root2 : information_gain [(0:ℤ),0,1,1] [0,0,1] [1] =
    3/2 - 3/4 * Real.logb 2 3 := by
  unfold information_gain
  rw [entropy_0011, entropy_001, entropy_single_label]
  norm_num
  ring

theorem ig_root_lt_one : 3/2 - 3/4 * Real.logb 2 3 < (1:ℝ) := by
  have := logb_two_three_gt
  linarith

theorem ig_root_gt_neg_one : (-1:ℝ) < 3/2 - 3/4 * Real.logb 2 3 := by
  have h : Real.logb 2 3 < 2 := by
    have h1 : Real.logb 2 3 < Real.logb 2 4 :=
      Real.logb_lt_logb one_lt_two (by norm_num) (by norm_num)
    have h2 : Real.logb 2 4 = 2 := by
      rw [show (4:ℝ) = 2^(2:ℕ) by norm_num, Real.logb_pow,
        Real.logb_self_eq_one one_lt_two]
      norm_num
    linarith
  linarith

/-! ### Concrete `best_split` evaluations -/

theorem bs_01 : best_split [[(0:ℚ)],[(1:ℚ)]] [(0:ℤ),1] = some ⟨0, 0, 1⟩ := by
  have hc : candidates [[(0:ℚ)],[(1:ℚ)]] = [(0,0),(0,1)] := by decide
  have hpl : partL [[(0:ℚ)],[(1:ℚ)]] [(0:ℤ),1] 0 0 = [0] := by decide
  have hpr : partR [[(0:ℚ)],[(1:ℚ)]] [(0:ℤ),1] 0 0 = [1] := by decide
  have h1 : bsStep [[(0:ℚ)],[(1:ℚ)]] [(0:ℤ),1] (-1, none) (0, 0) =
      (1, some ⟨0, 0, 1⟩) := by
    unfold bsStep
    rw [if_neg (by decide)]
    dsimp only
    rw [hpl, hpr, ig_01, if_pos (by norm_num : (-1:ℝ) < 1)]
  have h2 : bsStep [[(0:ℚ)],[(1:ℚ)]] [(0:ℤ),1] (1, some ⟨0, 0, 1⟩) (0, 1) =
      (1, some ⟨0, 0, 1⟩) := by
    unfold bsStep
    rw [if_pos (by decide)]
  unfold best_split
  rw [hc, List.foldl_cons, h1, List.foldl_cons, h2, List.foldl_nil]

theorem bs_00 : best_split [[(0:ℚ)],[(1:ℚ)]] [(0:ℤ),0] = some ⟨0, 0, 0⟩ := by
  have hc : candidates [[(0:ℚ)],[(1:ℚ)]] = [(0,0),(0,1)] := by decide
  have hpl : partL [[(0:ℚ)],[(1:ℚ)]] [(0:ℤ),0] 0 0 = [0] := by decide
  have hpr : partR [[(0:ℚ)],[(1:ℚ)]] [(0:ℤ),0] 0 0 = [0] := by decide
  have h1 : bsStep [[(0:ℚ)],[(1:ℚ)]] [(0:ℤ),0] (-1, none) (0, 0) =
      (0, some ⟨0, 0, 0⟩) := by
    unfold bsStep
    rw [if_neg (by decide)]
    dsimp only
    rw [hpl, hpr, ig_00, if_pos (by norm_num : (-1:ℝ) < 0)]
  have h2 : bsStep [[(0:ℚ)],[(1:ℚ)]] [(0:ℤ),0] (0, some ⟨0, 0, 0⟩) (0, 1) =
      (0, some ⟨0, 0, 0⟩) := by
    unfold bsStep
    rw [if_pos (by decide)]
  unfold best_split
  rw [hc, List.foldl_cons, h1, List.foldl_cons, h2, List.foldl_nil]

theorem bs_const : best_split [[(0:ℚ)],[(0:ℚ)]] [(0:ℤ),1] = none := by
  unfold best_split
  rw [foldl_skip_of_not_viable _ _ (by decide)]

theorem bs_root : best_split [[(0:ℚ)],[(1:ℚ)],[(2:ℚ)],[(3:ℚ)]] [(0:ℤ),0,1,1] =
    some ⟨0, 1, 1⟩ := by
  have hc : candidates [[(0:ℚ)],[(1:ℚ)],[(2:ℚ)],[(3:ℚ)]] =
      [(0,0),(0,1),(0,2),(0,3)] := by decide
  have h1 : bsStep [[(0:ℚ)],[(1:ℚ)],[(2:ℚ)],[(3:ℚ)]] [(0:ℤ),0,1,1]
      (-1, none) (0, 0) =
      (3/2 - 3/4 * Real.logb 2 3, some ⟨0, 0, 3/2 - 3/4 * Real.logb 2 3⟩) := by
    unfold bsStep
    rw [if_neg (by decide)]
    dsimp only
    rw [show partL [[(0:ℚ)],[(1:ℚ)],[(2:ℚ)],[(3:ℚ)]] [(0:ℤ),0,1,1] 0 0 = [0]
        from by decide,
      show partR [[(0:ℚ)],[(1:ℚ)],[(2:ℚ)],[(3:ℚ)]] [(0:ℤ),0,1,1] 0 0 = [0,1,1]
        from by decide,
      ig_root0, if_pos ig_root_gt_neg_one]
  have h2 : bsStep [[(0:ℚ)],[(1:ℚ)],[(2:ℚ)],[(3:ℚ)]] [(0:ℤ),0,1,1]
      (3/2 - 3/4 * Real.logb 2 3, some ⟨0, 0, 3/2 - 3/4 * Real.logb 2 3⟩)
      (0, 1) = (1, some ⟨0, 1, 1⟩) := by
    unfold bsStep
    rw [if_neg (by decide)]
    dsimp only
    rw [show partL [[(0:ℚ)],[(1:ℚ)],[(2:ℚ)],[(3:ℚ)]] [(0:ℤ),0,1,1] 0 1 = [0,0]
        from by decide,
      show partR [[(0:ℚ)],[(1:ℚ)],[(2:ℚ)],[(3:ℚ)]] [(0:ℤ),0,1,1] 0 1 = [1,1]
        from by decide,
      ig_root1, if_pos ig_root_lt_one]
  have h3 : bsStep [[(0:ℚ)],[(1:ℚ)],[(2:ℚ)],[(3:ℚ)]] [(0:ℤ),0,1,1]
      (1, some ⟨0, 1, 1⟩) (0, 2) = (1, some ⟨0, 1, 1⟩) := by
    unfold bsStep
    rw [if_neg (by decide)]
    dsimp only
    rw [show partL [[(0:ℚ)],[(1:ℚ)],[(2:ℚ)],[(3:ℚ)]] [(0:ℤ),0,1,1] 0 2 = [0,0,1]
        from by decide,
      show partR [[(0:ℚ)],[(1:ℚ)],[(2:ℚ)],[(3:ℚ)]] [(0:ℤ),0,1,1] 0 2 = [1]
        from by decide,
      ig_root2, if_neg (by have := ig_root_lt_one; intro h; linarith)]
  have h4 : bsStep [[(0:ℚ)],[(1:ℚ)],[(2:ℚ)],[(3:ℚ)]] [(0:ℤ),0,1,1]
      (1, some ⟨0, 1, 1⟩) (0, 3) = (1, some ⟨0, 1, 1⟩) := by
    unfold bsStep
    rw [if_pos (by decide)]
  unfold best_split
  rw [hc, List.foldl_cons, h1, List.foldl_cons, h2, List.foldl_cons, h3,
    List.foldl_cons, h4, List.foldl_nil]

/-! ### Unfolding lemmas for the recursive builder -/

theorem buildGen_stop {α : Type} {md : Option ℕ} {mss : ℕ}
    {leafF : Mat → Labels → ℕ → Except PyErr α}
    {nodeF : ℕ → ℚ → ℝ → α → α → α} {X : Mat} {y : Labels} {depth : ℕ}
    (h : stopB md mss X y depth = true) :
    buildGen md mss leafF nodeF X y depth = leafF X y depth := by
  rw [buildGen]
  rw [if_pos h]

theorem buildGen_none {α : Type} {md : Option ℕ} {mss : ℕ}
    {leafF : Mat → Labels → ℕ → Except PyErr α}
    {nodeF : ℕ → ℚ → ℝ → α → α → α} {X : Mat} {y : Labels} {depth : ℕ}
    (h : stopB md mss X y depth = false) (hs : best_split X y = none) :
    buildGen md mss leafF nodeF X y depth = leafF X y depth := by
  rw [buildGen]
  rw [if_neg (by simp [h]), hs]

theorem buildGen_split {α : Type} {md : Option ℕ} {mss : ℕ}
    {leafF : Mat → Labels → ℕ → Except PyErr α}
    {nodeF : ℕ → ℚ → ℝ → α → α → α} {X : Mat} {y : Labels} {depth : ℕ}
    {s : Split}
    (h : stopB md mss X y depth = false) (hs : best_split X y = some s) :
    buildGen md mss leafF nodeF X y depth = (do
      let l ← buildGen md mss leafF nodeF
        (xpartL X s.feature_index s.threshold)
        (partL X y s.feature_index s.threshold) (depth + 1)
      let r ← buildGen md mss leafF nodeF
        (xpartR X s.feature_index s.threshold)
        (partR X y s.feature_index s.threshold) (depth + 1)
      pure (nodeF s.feature_index s.threshold s.info_gain l r)) := by
  rw [buildGen]
  rw [if_neg (by simp [h]), hs]

/-! ### Concrete tree constructions -/

/-- The tree the notebook code builds on the spec scenario
`X = [[0],[1],[2],[3]]`, `y = [0,0,1,1]`. -/
theorem fit_demo :
    fit none 2 [[(0:ℚ)],[(1:ℚ)],[(2:ℚ)],[(3:ℚ)]] [(0:ℤ),0,1,1] =
      .ok (Node.node 0 1 1 (Node.leaf 0) (Node.leaf 1)) := by
  unfold fit build_tree
  rw [buildGen_split (by decide) bs_root]
  dsimp only
  rw [show xpartL [[(0:ℚ)],[(1:ℚ)],[(2:ℚ)],[(3:ℚ)]] 0 1 = [[(0:ℚ)],[(1:ℚ)]]
      from by decide,
    show partL [[(0:ℚ)],[(1:ℚ)],[(2:ℚ)],[(3:ℚ)]] [(0:ℤ),0,1,1] 0 1 = [(0:ℤ),0]
      from by decide,
    show xpartR [[(0:ℚ)],[(1:ℚ)],[(2:ℚ)],[(3:ℚ)]] 0 1 = [[(2:ℚ)],[(3:ℚ)]]
      from by decide,
    show partR [[(0:ℚ)],[(1:ℚ)],[(2:ℚ)],[(3:ℚ)]] [(0:ℤ),0,1,1] 0 1 = [(1:ℤ),1]
      from by decide,
    buildGen_stop (by decide), buildGen_stop (by decide)]
  rfl

theorem fit_depth0 :
    fit (some 0) 2 [[(0:ℚ)],[(1:ℚ)]] [(0:ℤ),1] = .ok (Node.leaf 0) := by
  unfold fit build_tree
  rw [buildGen_stop (by decide)]
  rfl

theorem fit_const_feature :
    fit none 2 [[(0:ℚ)],[(0:ℚ)]] [(0:ℤ),1] = .ok (Node.leaf 0) := by
  unfold fit build_tree
  rw [buildGen_none (by decide) bs_const]
  rfl

theorem leafRecs_const_feature :
    leafRecs none 2 [[(0:ℚ)],[(0:ℚ)]] [(0:ℤ),1] 0 =
      .ok [([[(0:ℚ)],[(0:ℚ)]], [(0:ℤ),1], 0)] := by
  unfold leafRecs
  rw [buildGen_none (by decide) bs_const]
  rfl

theorem fit_zero_cols :
    fit none 2 [[],[]] [(0:ℤ),1] = .ok (Node.leaf 0) := by
  have hbs : best_split [[],[]] [(0:ℤ),1] = none := by
    unfold best_split
    rw [show candidates [[],[]] = [] from by decide, List.foldl_nil]
  unfold fit build_tree
  rw [buildGen_none (by decide) hbs]
  rfl

theorem fit_zero_rows :
    fit none 2 [] [] = .error PyErr.valueErrorEmptyArgmax := by
  unfold fit build_tree
  rw [buildGen_stop (by decide)]
  rfl

theorem fit_negative_labels :
    fit none 2 [[(0:ℚ)],[(1:ℚ)]] [(-1:ℤ),-1] =
      .error PyErr.valueErrorNegativeBincount := by
  unfold fit build_tree
  rw [buildGen_stop (by decide)]
  rfl

theorem fit_single_class_55 :
    fit none 2 [[(0:ℚ)],[(1:ℚ)]] [(5:ℤ),5] = .ok (Node.leaf 5) := by
  unfold fit build_tree
  rw [buildGen_stop (by decide)]
  rfl

/-! ### The leaf value is the majority label with smallest-label tie-break -/

/-- Predicate: `v` is a majority label of `y`, ties broken in favor of the smallest
label among those tied for the maximum count. -/
def Majority (y : Labels) (v : ℤ) : Prop :=
  (∀ u : ℤ, y.count u ≤ y.count v) ∧
  (∀ u : ℤ, y.count u = y.count v → v ≤ u)

/-- Model of `np.argmax(np.bincount(l))` for non-negative data, as in `leafValue`. -/
def argmaxBC (l : List ℕ) : ℕ :=
  (bincount l).indexOf ((bincount l).foldr max 0)

theorem le_foldr_max (l : List ℕ) (b : ℕ) : ∀ a ∈ l, a ≤ l.foldr max b := by
  induction l with
  | nil => intro a ha; cases ha
  | cons c t ih =>
    intro a ha
    rcases List.mem_cons.1 ha with h | h
    · subst h
      exact le_max_left _ _
    · exact le_trans (ih a h) (le_max_right _ _)

theorem foldr_max_mem : ∀ (l : List ℕ), l ≠ [] → l.foldr max 0 ∈ l := by
  intro l
  induction l with
  | nil => intro h; cases h rfl
  | cons a t ih =>
    intro _
    by_cases ht : t = []
    · subst ht
      simp
    · have hmem := ih ht
      simp only [List.foldr_cons]
      rcases le_total a (t.foldr max 0) with h | h
      · rw [max_eq_right h]
        exact List.mem_cons_of_mem a hmem
      · rw [max_eq_left h]
        exact List.mem_cons_self a t

theorem bincount_length (l : List ℕ) :
    (bincount l).length = l.foldr max 0 + 1 := by
  simp [bincount]

theorem bincount_get (l : List ℕ) (i : ℕ) (hi : i < (bincount l).length) :
    (bincount l).get ⟨i, hi⟩ = l.count i := by
  simp [bincount]

theorem count_high_zero (l : List ℕ) {n : ℕ} (hn : l.foldr max 0 < n) :
    l.count n = 0 := by
  refine List.count_eq_zero.2 (fun hmem => ?_)
  exact absurd (le_foldr_max l 0 n hmem) (by omega)

/-- The specification of `np.argmax(np.bincount(l))`: it has a maximal count,
and it is the least value among those achieving the maximal count. -/
theorem argmaxBC_spec (l : List ℕ) :
    (∀ n : ℕ, l.count n ≤ l.count (argmaxBC l)) ∧
    (∀ n : ℕ, l.count n = l.count (argmaxBC l) → argmaxBC l ≤ n) := by
  have hbcne : bincount l ≠ [] := by
    intro h
    have := bincount_length l
    rw [h] at this
    simp at this
  have hmxmem : (bincount l).foldr max 0 ∈ bincount l :=
    foldr_max_mem (bincount l) hbcne
  have hvi : (bincount l).indexOf ((bincount l).foldr max 0) <
      (bincount l).length := List.indexOf_lt_length.2 hmxmem
  have hviget : (bincount l).get ⟨argmaxBC l, hvi⟩ = (bincount l).foldr max 0 :=
    List.indexOf_get hvi
  have hvicount : l.count (argmaxBC l) = (bincount l).foldr max 0 := by
    rw [← bincount_get l (argmaxBC l) hvi, hviget]
  have hcount_le : ∀ n : ℕ, l.count n ≤ (bincount l).foldr max 0 := by
    intro n
    by_cases hn : n < (bincount l).length
    · rw [← bincount_get l n hn]
      exact le_foldr_max (bincount l) 0 _ (List.get_mem (bincount l) n hn)
    · push_neg at hn
      rw [bincount_length] at hn
      rw [count_high_zero l (by omega)]
      exact Nat.zero_le _
  refine ⟨fun n => le_trans (hcount_le n) (le_of_eq hvicount.symm), ?_⟩
  intro n hn
  by_contra hlt
  push_neg at hlt
  have hnlen : n < (bincount l).length := lt_trans hlt hvi
  have hcnt : (bincount l).get ⟨n, hnlen⟩ = (bincount l).foldr max 0 := by
    rw [bincount_get l n hnlen, hn, hvicount]
  have hne := List.not_of_lt_findIdx
    (show n < (bincount l).findIdx (· == (bincount l).foldr max 0) from hlt)
  have hfalse : ((bincount l).get ⟨n, hnlen⟩ == (bincount l).foldr max 0) = false := by
    rw [List.get_eq_getElem]
    exact hne
  rw [hcnt] at hfalse
  simp at hfalse

theorem count_map_toNat : ∀ (y : Labels), (∀ a ∈ y, 0 ≤ a) → ∀ n : ℕ,
    (y.map Int.toNat).count n = y.count (n : ℤ) := by
  intro y
  induction y with
  | nil => intro _ n; rfl
  | cons a t ih =>
    intro hnn n
    have ha := hnn a (List.mem_cons_self a t)
    have ih' := ih (fun b hb => hnn b (List.mem_cons_of_mem a hb)) n
    simp only [List.map_cons, List.count_cons, ih']
    congr 1
    by_cases h : a = (n : ℤ)
    · subst h
      simp [Int.toNat_of_nonneg ha]
    · have h2 : a.toNat ≠ n := fun hh => h (by rw [← hh, Int.toNat_of_nonneg ha])
      simp [h, h2]

theorem leafValue_ok {y : Labels} (hy : y ≠ []) (hnn : ∀ a ∈ y, 0 ≤ a) :
    leafValue y = .ok (Int.ofNat (argmaxBC (y.map Int.toNat))) := by
  unfold leafValue
  rw [if_neg (by simp [hy]), if_neg (by simp; intro x hx; exact hnn x hx)]
  rfl

theorem leafValue_majority {y : Labels} (hy : y ≠ []) (hnn : ∀ a ∈ y, 0 ≤ a) :
    ∃ v : ℤ, leafValue y = .ok v ∧ Majority y v := by
  have hspec := argmaxBC_spec (y.map Int.toNat)
  have hveq : (y.map Int.toNat).count (argmaxBC (y.map Int.toNat)) =
      y.count ((argmaxBC (y.map Int.toNat) : ℕ) : ℤ) :=
    count_map_toNat y hnn _
  have hofnat : Int.ofNat (argmaxBC (y.map Int.toNat)) =
      ((argmaxBC (y.map Int.toNat) : ℕ) : ℤ) := rfl
  have hmax : ∀ u : ℤ,
      y.count u ≤ y.count (Int.ofNat (argmaxBC (y.map Int.toNat))) := by
    intro u
    rcases lt_or_le u 0 with hu | hu
    · rw [List.count_eq_zero.2 (fun hm => absurd (hnn u hm) (not_le.2 hu))]
      exact Nat.zero_le _
    · obtain ⟨n, rfl⟩ : ∃ n : ℕ, u = (n : ℤ) :=
        ⟨u.toNat, (Int.toNat_of_nonneg hu).symm⟩
      rw [hofnat, ← hveq, ← count_map_toNat y hnn n]
      exact hspec.1 n
  refine ⟨Int.ofNat (argmaxBC (y.map Int.toNat)), leafValue_ok hy hnn, hmax, ?_⟩
  intro u hu
  rcases lt_or_le u 0 with hneg | hpos
  · exfalso
    obtain ⟨a, ha⟩ := List.exists_mem_of_ne_nil y hy
    have h1 : 0 < y.count a := List.count_pos_iff.2 ha
    have h2 := hmax a
    have h0 : y.count u = 0 :=
      List.count_eq_zero.2 (fun hm => absurd (hnn u hm) (not_le.2 hneg))
    omega
  · obtain ⟨n, rfl⟩ : ∃ n : ℕ, u = (n : ℤ) :=
      ⟨u.toNat, (Int.toNat_of_nonneg hpos).symm⟩
    have heq : (y.map Int.toNat).count n =
        (y.map Int.toNat).count (argmaxBC (y.map Int.toNat)) := by
      rw [count_map_toNat y hnn n, hveq]
      rw [hofnat] at hu
      exact hu
    have hle := hspec.2 n heq
    rw [hofnat]
    exact_mod_cast hle

/-! ### C1: exactly when a leaf is emitted, and what it predicts -/

theorem stopB_iff {md : Option ℕ} {mss : ℕ} {X : Mat} {y : Labels} {depth : ℕ} :
    stopB md mss X y depth = true ↔
      (∃ d, md = some d ∧ d ≤ depth) ∨ X.length < mss ∨ y.dedup.length = 1 := by
  cases md <;> simp [stopB, or_assoc]

theorem except_do_ok {ε α β : Type} {ma mb : Except ε α} {f : α → α → β}
    {out : β}
    (h : (do
      let l ← ma
      let r ← mb
      pure (f l r) : Except ε β) = .ok out) :
    ∃ l r, ma = .ok l ∧ mb = .ok r ∧ out = f l r := by
  cases ma with
  | error e => cases h
  | ok l =>
    cases mb with
    | error e => cases h
    | ok r =>
      have h' : (Except.ok (f l r) : Except ε β) = .ok out := h
      exact ⟨l, r, rfl, rfl, (Except.ok.inj h').symm⟩

theorem build_tree_some_split {md : Option ℕ} {mss : ℕ} {X : Mat} {y : Labels}
    {depth : ℕ} {s : Split}
    (hstop : stopB md mss X y depth = false) (hs : best_split X y = some s) :
    ∀ v, build_tree md mss X y depth ≠ .ok (Node.leaf v) := by
  intro v hv
  unfold build_tree at hv
  rw [buildGen_split hstop hs] at hv
  obtain ⟨l, r, -, -, hout⟩ := except_do_ok hv
  cases hout

/-- Claim C1: on well-formed input with non-negative labels, `build_tree`
emits a leaf exactly when `depth >= max_depth` (when `max_depth` is set), or
`len(y) < min_samples_split`, or `y` has exactly one distinct class, or
`best_split` returns no candidate; and the emitted leaf value is a majority
label of `y`, ties broken in favor of the smallest label among those tied
for the maximum count. -/
theorem claim_C1_leaf_iff (md : Option ℕ) (mss : ℕ) (X : Mat) (y : Labels)
    (depth : ℕ) (hX : X ≠ []) (hlen : y.length = X.length)
    (hnn : ∀ a ∈ y, 0 ≤ a) :
    ((∃ v, build_tree md mss X y depth = .ok (Node.leaf v)) ↔
      ((∃ d, md = some d ∧ d ≤ depth) ∨ y.length < mss ∨
        y.dedup.length = 1 ∨ best_split X y = none)) ∧
    (∀ v, build_tree md mss X y depth = .ok (Node.leaf v) → Majority y v) := by
  have hy : y ≠ [] := by
    intro h
    subst h
    simp at hlen
    exact hX (List.length_eq_zero.1 hlen.symm)
  obtain ⟨v₀, hv₀, hmaj₀⟩ := leafValue_majority hy hnn
  have hleafval : ∀ v : ℤ, ((leafValue y).map Node.leaf = .ok (Node.leaf v)) → v = v₀ := by
    intro v hv
    rw [hv₀] at hv
    have h' : (Except.ok (Node.leaf v₀) : Except PyErr Node) = .ok (Node.leaf v) := hv
    cases Except.ok.inj h'
    rfl
  have hstopcase : ∀ v : ℤ, stopB md mss X y depth = true →
      build_tree md mss X y depth = (leafValue y).map Node.leaf := by
    intro v hstop
    unfold build_tree
    rw [buildGen_stop hstop]
  constructor
  · constructor
    · rintro ⟨v, hv⟩
      by_cases hstop : stopB md mss X y depth = true
      · rcases stopB_iff.1 hstop with h | h | h
        · exact Or.inl h
        · exact Or.inr (Or.inl (by omega))
        · exact Or.inr (Or.inr (Or.inl h))
      · simp only [Bool.not_eq_true] at hstop
        cases hbs : best_split X y with
        | none => exact Or.inr (Or.inr (Or.inr rfl))
        | some s => exact absurd hv (build_tree_some_split hstop hbs v)
    · intro hcond
      by_cases hstop : stopB md mss X y depth = true
      · refine ⟨v₀, ?_⟩
        unfold build_tree
        rw [buildGen_stop hstop, hv₀]
        rfl
      · simp only [Bool.not_eq_true] at hstop
        have hbs : best_split X y = none := by
          rcases hcond with h | h | h | h
          · have hh : stopB md mss X y depth = true := stopB_iff.2 (Or.inl h)
            rw [hstop] at hh
            cases hh
          · have hh : stopB md mss X y depth = true :=
              stopB_iff.2 (Or.inr (Or.inl (by omega)))
            rw [hstop] at hh
            cases hh
          · have hh : stopB md mss X y depth = true :=
              stopB_iff.2 (Or.inr (Or.inr h))
            rw [hstop] at hh
            cases hh
          · exact h
        refine ⟨v₀, ?_⟩
        unfold build_tree
        rw [buildGen_none hstop hbs, hv₀]
        rfl
  · intro v hv
    by_cases hstop : stopB md mss X y depth = true
    · have := hstopcase v hstop
      rw [this] at hv
      rw [hleafval v hv]
      exact hmaj₀
    · simp only [Bool.not_eq_true] at hstop
      cases hbs : best_split X y with
      | none =>
        unfold build_tree at hv
        rw [buildGen_none hstop hbs] at hv
        rw [hleafval v hv]
        exact hmaj₀
      | some s => exact absurd hv (build_tree_some_split hstop hbs v)

/-! ### C3: depth bound (termination is intrinsic: `buildGen` is a total
function, defined by well-founded recursion on the strictly decreasing row
count; see `xpartL_length_lt` / `xpartR_length_lt`) -/

theorem except_map_ok {ε α β : Type} {ma : Except ε α} {f : α → β} {out : β}
    (h : ma.map f = .ok out) : ∃ a, ma = .ok a ∧ out = f a := by
  cases ma with
  | error e => cases h
  | ok a =>
    have h' : (Except.ok (f a) : Except ε β) = .ok out := h
    exact ⟨a, rfl, (Except.ok.inj h').symm⟩

theorem best_split_nil (y : Labels) : best_split [] y = none := rfl

theorem depth_lt_of_stopB_false {md : Option ℕ} {mss : ℕ} {X : Mat}
    {y : Labels} {depth d : ℕ} (hmd : md = some d)
    (h : stopB md mss X y depth = false) : depth < d := by
  subst hmd
  by_contra hge
  push_neg at hge
  have : stopB (some d) mss X y depth = true :=
    stopB_iff.2 (Or.inl ⟨d, rfl, hge⟩)
  rw [h] at this
  cases this

theorem build_tree_depth_bound :
    ∀ (n mss : ℕ) (X : Mat) (y : Labels) (depth d : ℕ) (t : Node),
      X.length ≤ n →
      build_tree (some d) mss X y depth = .ok t → treeDepth t ≤ d - depth := by
  intro n
  induction n with
  | zero =>
    intro mss X y depth d t hn h
    have hX : X = [] := List.length_eq_zero.1 (Nat.le_zero.1 hn)
    subst hX
    by_cases hstop : stopB (some d) mss [] y depth = true
    · unfold build_tree at h
      rw [buildGen_stop hstop] at h
      obtain ⟨v, -, ht⟩ := except_map_ok h
      subst ht
      simp [treeDepth]
    · simp only [Bool.not_eq_true] at hstop
      unfold build_tree at h
      rw [buildGen_none hstop (best_split_nil y)] at h
      obtain ⟨v, -, ht⟩ := except_map_ok h
      subst ht
      simp [treeDepth]
  | succ n ih =>
    intro mss X y depth d t hn h
    by_cases hstop : stopB (some d) mss X y depth = true
    · unfold build_tree at h
      rw [buildGen_stop hstop] at h
      obtain ⟨v, -, ht⟩ := except_map_ok h
      subst ht
      simp [treeDepth]
    · simp only [Bool.not_eq_true] at hstop
      cases hbs : best_split X y with
      | none =>
        unfold build_tree at h
        rw [buildGen_none hstop hbs] at h
        obtain ⟨v, -, ht⟩ := except_map_ok h
        subst ht
        simp [treeDepth]
      | some s =>
        unfold build_tree at h
        rw [buildGen_split hstop hbs] at h
        obtain ⟨l, r, hl, hr, ht⟩ := except_do_ok h
        subst ht
        have hv := best_split_viable hbs
        have hxl : (xpartL X s.feature_index s.threshold).length ≤ n := by
          have := xpartL_length_lt (xpartR_ne_nil_of_partR hv.2)
          omega
        have hxr : (xpartR X s.feature_index s.threshold).length ≤ n := by
          have := xpartR_length_lt (xpartL_ne_nil_of_partL hv.1)
          omega
        have hdl := ih mss _ _ (depth + 1) d l hxl hl
        have hdr := ih mss _ _ (depth + 1) d r hxr hr
        have hdepth : depth < d := depth_lt_of_stopB_false rfl hstop
        simp only [treeDepth]
        omega

/-- Claim C3: `fit` is a total function of its well-formed input (the
recursion is well-founded because each partition has strictly fewer rows:
`xpartL_length_lt`, `xpartR_length_lt`), and when `max_depth = some d` is
set, the maximum leaf depth of any tree it returns is at most `d`. -/
theorem claim_C3_fit_depth_le (mss : ℕ) (X : Mat) (y : Labels) (d : ℕ)
    (t : Node) (h : fit (some d) mss X y = .ok t) : treeDepth t ≤ d := by
  unfold fit at h
  have := build_tree_depth_bound X.length mss X y 0 d t le_rfl h
  simpa using this

/-! ### C4: every leaf subset satisfies a stopping condition -/

theorem zip_countP_fst (q : Row → Bool) :
    ∀ (X : Mat) (y : Labels), y.length = X.length →
      (X.zip y).countP (fun p => q p.1) = X.countP q := by
  intro X
  induction X with
  | nil => intro y h; simp
  | cons a t ih =>
    intro y h
    cases y with
    | nil => simp at h
    | cons b u =>
      simp only [List.zip_cons_cons, List.countP_cons]
      rw [ih u (by simpa using h)]

theorem partL_length_eq (X : Mat) (y : Labels) (f : ℕ) (t : ℚ)
    (h : y.length = X.length) :
    (partL X y f t).length = (xpartL X f t).length := by
  unfold partL xpartL
  rw [List.length_map, ← List.countP_eq_length_filter,
    ← List.countP_eq_length_filter]
  exact zip_countP_fst (maskL f t) X y h

theorem partR_length_eq (X : Mat) (y : Labels) (f : ℕ) (t : ℚ)
    (h : y.length = X.length) :
    (partR X y f t).length = (xpartR X f t).length := by
  unfold partR xpartR
  rw [List.length_map, ← List.countP_eq_length_filter,
    ← List.countP_eq_length_filter]
  exact zip_countP_fst (fun r => ! maskL f t r) X y h

theorem leafRecs_inv :
    ∀ (n : ℕ) (md : Option ℕ) (mss : ℕ) (X : Mat) (y : Labels) (depth : ℕ)
      (recs : List (Mat × Labels × ℕ)),
      X.length ≤ n → y.length = X.length →
      leafRecs md mss X y depth = .ok recs →
      ∀ r ∈ recs, r.2.1.dedup.length = 1 ∨ r.2.1.length < mss ∨
        (∃ dm, md = some dm ∧ dm ≤ r.2.2) ∨ best_split r.1 r.2.1 = none := by
  intro n
  induction n with
  | zero =>
    intro md mss X y depth recs hn hlen h r hr
    have hX : X = [] := List.length_eq_zero.1 (Nat.le_zero.1 hn)
    subst hX
    by_cases hstop : stopB md mss [] y depth = true
    · unfold leafRecs at h
      rw [buildGen_stop hstop] at h
      obtain ⟨v, -, ht⟩ := except_map_ok h
      subst ht
      rcases List.mem_singleton.1 hr with rfl
      rcases stopB_iff.1 hstop with hc | hc | hc
      · obtain ⟨dm, hdm, hdd⟩ := hc
        exact Or.inr (Or.inr (Or.inl ⟨dm, hdm, hdd⟩))
      · exact Or.inr (Or.inl (by simpa [hlen] using hc))
      · exact Or.inl hc
    · simp only [Bool.not_eq_true] at hstop
      unfold leafRecs at h
      rw [buildGen_none hstop (best_split_nil y)] at h
      obtain ⟨v, -, ht⟩ := except_map_ok h
      subst ht
      rcases List.mem_singleton.1 hr with rfl
      exact Or.inr (Or.inr (Or.inr (best_split_nil y)))
  | succ n ih =>
    intro md mss X y depth recs hn hlen h r hr
    by_cases hstop : stopB md mss X y depth = true
    · unfold leafRecs at h
      rw [buildGen_stop hstop] at h
      obtain ⟨v, -, ht⟩ := except_map_ok h
      subst ht
      rcases List.mem_singleton.1 hr with rfl
      rcases stopB_iff.1 hstop with hc | hc | hc
      · obtain ⟨dm, hdm, hdd⟩ := hc
        exact Or.inr (Or.inr (Or.inl ⟨dm, hdm, hdd⟩))
      · exact Or.inr (Or.inl (by simpa [hlen] using hc))
      · exact Or.inl hc
    · simp only [Bool.not_eq_true] at hstop
      cases hbs : best_split X y with
      | none =>
        unfold leafRecs at h
        rw [buildGen_none hstop hbs] at h
        obtain ⟨v, -, ht⟩ := except_map_ok h
        subst ht
        rcases List.mem_singleton.1 hr with rfl
        exact Or.inr (Or.inr (Or.inr hbs))
      | some s =>
        unfold leafRecs at h
        rw [buildGen_split hstop hbs] at h
        obtain ⟨lrecs, rrecs, hl, hr', ht⟩ := except_do_ok h
        subst ht
        have hv := best_split_viable hbs
        have hxl : (xpartL X s.feature_index s.threshold).length ≤ n := by
          have := xpartL_length_lt (xpartR_ne_nil_of_partR hv.2)
          omega
        have hxr : (xpartR X s.feature_index s.threshold).length ≤ n := by
          have := xpartR_length_lt (xpartL_ne_nil_of_partL hv.1)
          omega
        rcases List.mem_append.1 hr with hm | hm
        · exact ih md mss _ _ (depth + 1) lrecs hxl
            (partL_length_eq X y s.feature_index s.threshold hlen) hl r hm
        · exact ih md mss _ _ (depth + 1) rrecs hxr
            (partR_length_eq X y s.feature_index s.threshold hlen) hr' r hm

/-- Claim C4 (amended): for every tree produced by `fit` on well-formed input,
every leaf satisfies at least one of: its training subset has a single
distinct label, its training subset has fewer than `min_samples_split`
samples, the leaf sits at the configured maximum depth, **or the split
search returned no candidate on its training subset** (the fourth case the
original claim omits). -/
theorem claim_C4_amended_leaf_conditions (md : Option ℕ) (mss : ℕ) (X : Mat)
    (y : Labels) (recs : List (Mat × Labels × ℕ))
    (hlen : y.length = X.length) (h : leafRecs md mss X y 0 = .ok recs) :
    ∀ r ∈ recs, r.2.1.dedup.length = 1 ∨ r.2.1.length < mss ∨
      (∃ dm, md = some dm ∧ dm ≤ r.2.2) ∨ best_split r.1 r.2.1 = none :=
  leafRecs_inv X.length md mss X y 0 recs le_rfl hlen h

/-- Claim C4 (counterexample): on `X = [[0],[0]]`, `y = [0,1]` with the default
`min_samples_split = 2` and no depth bound, `fit` produces a single leaf whose
training subset has two distinct labels, does not have fewer than
`min_samples_split` samples, and sits at no configured maximum depth: the
three conditions of the claim all fail (the leaf exists only because
`best_split` returned `None`). -/
theorem claim_C4_counterexample :
    ∃ recs, leafRecs none 2 [[(0:ℚ)],[(0:ℚ)]] [(0:ℤ),1] 0 = .ok recs ∧
      ∃ r ∈ recs, ¬ (r.2.1.dedup.length = 1 ∨ r.2.1.length < 2 ∨
        (∃ dm, (none : Option ℕ) = some dm ∧ dm ≤ r.2.2)) := by
  refine ⟨[([[(0:ℚ)],[(0:ℚ)]], [(0:ℤ),1], 0)], leafRecs_const_feature,
    ([[(0:ℚ)],[(0:ℚ)]], [(0:ℤ),1], 0), List.mem_singleton.2 rfl, ?_⟩
  intro hcond
  rcases hcond with hc | hc | hc
  · exact absurd hc (by decide)
  · exact absurd hc (by decide)
  · obtain ⟨dm, hdm, -⟩ := hc
    cases hdm

/-! ### Claim theorems: C5, C6, C7, C8 concrete parts, C9, C10, witnesses -/

/-- Claim C7: for non-empty `y`: the entropy evaluator returns
`-Σ p_c * log2 p_c` summed over the distinct classes present in `y`, the
result is non-negative, every class entering the sum has strictly positive
empirical proportion (zero-probability classes never enter, so `log2 0` is
never evaluated), and a single distinct class gives entropy `0`. -/
theorem claim_C7_entropy (y : Labels) (hy : y ≠ []) :
    entropy y = ∑ c ∈ y.toFinset,
      -(((y.count c : ℝ) / (y.length : ℝ)) *
        Real.logb 2 ((y.count c : ℝ) / (y.length : ℝ))) ∧
    0 ≤ entropy y ∧
    (∀ c ∈ y.dedup, 0 < (y.count c : ℝ) / (y.length : ℝ)) ∧
    (y.dedup.length = 1 → entropy y = 0) := by
  refine ⟨?_, entropy_nonneg y, ?_, ?_⟩
  · rw [← dedup_toFinset, List.sum_toFinset _ (List.nodup_dedup y)]
    rfl
  · intro c hc
    exact div_pos (by exact_mod_cast count_pos_of_mem_dedup hc)
      (length_pos_real hy)
  · intro h1
    obtain ⟨c, hc⟩ := List.length_eq_one.1 h1
    exact entropy_of_single_class hc

theorem claim_C7_witness :
    0 ≤ entropy [(0:ℤ), 1] ∧
    (∀ c ∈ ([(0:ℤ), 1]).dedup,
      0 < ((([(0:ℤ), 1]).count c : ℝ) / ((([(0:ℤ), 1]).length : ℝ)))) :=
  ⟨(claim_C7_entropy [(0:ℤ), 1] (by decide)).2.1,
   (claim_C7_entropy [(0:ℤ), 1] (by decide)).2.2.1⟩

/-- Claim C5 (counterexample): on the zero-column dataset `X = [[],[]]`,
`y = [0,1]` — invalid per the claim — `fit` raises nothing: construction
proceeds and returns a single-leaf tree, not an `InvalidDatasetError`. -/
theorem claim_C5_counterexample :
    fit none 2 [[],[]] [(0:ℤ),1] = .ok (Node.leaf 0) ∧
    fit none 2 [[],[]] [(0:ℤ),1] ≠ .error PyErr.invalidDataset := by
  refine ⟨fit_zero_cols, fun h => ?_⟩
  rw [fit_zero_cols] at h
  cases h

/-- Claim C5 (amended): `fit` performs no input validation: a zero-column `X`
silently yields a single-leaf tree, and a zero-row `X` fails inside leaf
construction with numpy's `ValueError` (argmax of an empty bincount) — not
with a pre-construction `InvalidDatasetError`. -/
theorem claim_C5_amended_no_validation :
    fit none 2 [[],[]] [(0:ℤ),1] = .ok (Node.leaf 0) ∧
    fit none 2 [] [] = .error PyErr.valueErrorEmptyArgmax :=
  ⟨fit_zero_cols, fit_zero_rows⟩

/-- Claim C6 (counterexample): a tree fitted on width-1 data can be queried
with a width-3 vector without any error: the single-leaf tree returns its
class silently instead of raising an `InputDimensionError`. -/
theorem claim_C6_counterexample :
    fit none 2 [[(0:ℚ)],[(1:ℚ)]] [(5:ℤ),5] = .ok (Node.leaf 5) ∧
    predict (Node.leaf 5) [[(1:ℚ),2,3]] = .ok [5] ∧
    predict (Node.leaf 5) [[(1:ℚ),2,3]] ≠ .error PyErr.inputDimension := by
  refine ⟨fit_single_class_55, rfl, fun h => ?_⟩
  rw [show predict (Node.leaf 5) [[(1:ℚ),2,3]] = .ok [5] from rfl] at h
  cases h

/-- Claim C6 (amended): prediction performs no dimension validation: a query of
mismatched width is answered silently whenever traversal reaches a leaf, and
the only failure mode is numpy's `IndexError` when a traversed decision node
references a feature index out of range of the query vector. -/
theorem claim_C6_amended_no_dimension_check :
    predict (Node.leaf 5) [[(1:ℚ),2,3]] = .ok [5] ∧
    predict (Node.node 0 1 1 (Node.leaf 0) (Node.leaf 1)) [[]] =
      .error PyErr.indexError :=
  ⟨rfl, rfl⟩

/-- Claim C8 (counterexample): on `X = [[0],[1]]`, `y = [0,0]` every candidate
split has zero information gain or yields an empty partition, yet
`best_split` returns the zero-gain split `(0, 0, 0)` rather than `None`. -/
theorem claim_C8_counterexample :
    (∀ c ∈ candidates [[(0:ℚ)],[(1:ℚ)]],
      infoGainAt [[(0:ℚ)],[(1:ℚ)]] [(0:ℤ),0] c.1 c.2 = 0 ∨
      ¬ viable [[(0:ℚ)],[(1:ℚ)]] [(0:ℤ),0] c.1 c.2) ∧
    best_split [[(0:ℚ)],[(1:ℚ)]] [(0:ℤ),0] ≠ none := by
  constructor
  · intro c hc
    have hcands : candidates [[(0:ℚ)],[(1:ℚ)]] = [(0,0),(0,1)] := by decide
    rw [hcands] at hc
    rcases List.mem_cons.1 hc with rfl | hc
    · left
      show information_gain [(0:ℤ),0]
        (partL [[(0:ℚ)],[(1:ℚ)]] [(0:ℤ),0] 0 0)
        (partR [[(0:ℚ)],[(1:ℚ)]] [(0:ℤ),0] 0 0) = 0
      rw [show partL [[(0:ℚ)],[(1:ℚ)]] [(0:ℤ),0] 0 0 = [0] from by decide,
        show partR [[(0:ℚ)],[(1:ℚ)]] [(0:ℤ),0] 0 0 = [0] from by decide]
      exact ig_00
    · rcases List.mem_cons.1 hc with rfl | hc
      · right
        decide
      · cases hc
  · rw [bs_00]
    intro h
    cases h

theorem claim_C8_amended_witness :
    best_split [[(0:ℚ)],[(0:ℚ)]] [(0:ℤ),1] = none :=
  (@claim_C8_amended_none_iff_no_viable [[(0:ℚ)],[(0:ℚ)]] [(0:ℤ),1] rfl).2
    (by decide)

/-- Claim C9: the spec scenario `X = [[0],[1],[2],[3]]`, `y = [0,0,1,1]`,
`min_samples_split = 2`, unbounded depth: the fitted tree has a root decision
node with `feature_index = 0`, threshold `1` (which lies in `[1, 2)`) and
information gain `1 > 0`; it predicts `0` on `[0.5]` and `1` on `[2.5]`. -/
theorem predict_single_half :
    predict_single [(1:ℚ)/2] (Node.node 0 1 1 (Node.leaf 0) (Node.leaf 1)) =
      .ok 0 := by
  simp only [predict_single]
  rw [if_pos (by norm_num), if_pos (by norm_num [List.getD])]

theorem predict_single_fivehalves :
    predict_single [(5:ℚ)/2] (Node.node 0 1 1 (Node.leaf 0) (Node.leaf 1)) =
      .ok 1 := by
  simp only [predict_single]
  rw [if_pos (by norm_num), if_neg (by norm_num [List.getD])]

theorem claim_C9_demo_scenario :
    fit none 2 [[(0:ℚ)],[(1:ℚ)],[(2:ℚ)],[(3:ℚ)]] [(0:ℤ),0,1,1] =
      .ok (Node.node 0 1 1 (Node.leaf 0) (Node.leaf 1)) ∧
    (1:ℚ) ≤ 1 ∧ (1:ℚ) < 2 ∧ (0:ℝ) < 1 ∧
    predict (Node.node 0 1 1 (Node.leaf 0) (Node.leaf 1)) [[(1:ℚ)/2]] =
      .ok [0] ∧
    predict (Node.node 0 1 1 (Node.leaf 0) (Node.leaf 1)) [[(5:ℚ)/2]] =
      .ok [1] := by
  refine ⟨fit_demo, le_refl 1, by norm_num, by norm_num, ?_, ?_⟩
  · unfold predict
    simp only [List.mapM, List.mapM.loop]
    rw [predict_single_half]
    rfl
  · unfold predict
    simp only [List.mapM, List.mapM.loop]
    rw [predict_single_fivehalves]
    rfl

/-- Claim C10: `fit` cannot finish on data whose labels include a negative
integer whenever a leaf must be emitted: `np.bincount` rejects negative
input, so `fit` raises an error instead of returning a fitted tree, even
though the data model only requires integer labels. -/
theorem claim_C10_negative_label_error :
    fit none 2 [[(0:ℚ)],[(1:ℚ)]] [(-1:ℤ),-1] =
      .error PyErr.valueErrorNegativeBincount :=
  fit_negative_labels

theorem claim_C1_witness :
    (∃ v, build_tree none 2 [[(0:ℚ)],[(1:ℚ)]] [(5:ℤ),5] 0 =
      .ok (Node.leaf v)) ∧
    (∀ v, build_tree none 2 [[(0:ℚ)],[(1:ℚ)]] [(5:ℤ),5] 0 =
      .ok (Node.leaf v) → Majority [(5:ℤ),5] v) := by
  have h := claim_C1_leaf_iff none 2 [[(0:ℚ)],[(1:ℚ)]] [(5:ℤ),5] 0
    (by decide) (by decide) (by decide)
  exact ⟨h.1.mpr (Or.inr (Or.inr (Or.inl (by decide)))), h.2⟩

theorem claim_C2_witness :
    0 ≤ (Split.mk 0 0 1).info_gain ∧
    ∀ f t, f < nFeatures [[(0:ℚ)],[(1:ℚ)]] → t ∈ colF [[(0:ℚ)],[(1:ℚ)]] f →
      viable [[(0:ℚ)],[(1:ℚ)]] [(0:ℤ),1] f t →
      infoGainAt [[(0:ℚ)],[(1:ℚ)]] [(0:ℤ),1] f t ≤
        (Split.mk 0 0 1).info_gain := by
  have h := @claim_C2_chosen_gain_maximal [[(0:ℚ)],[(1:ℚ)]] [(0:ℤ),1]
    ⟨0, 0, 1⟩ rfl bs_01
  exact ⟨h.1, h.2.1⟩

theorem claim_C3_witness : treeDepth (Node.leaf 0) ≤ 0 :=
  claim_C3_fit_depth_le 2 [[(0:ℚ)],[(1:ℚ)]] [(0:ℤ),1] 0 (Node.leaf 0)
    fit_depth0

theorem claim_C4_amended_witness :
    ([(0:ℤ),1]).dedup.length = 1 ∨ ([(0:ℤ),1]).length < 2 ∨
    (∃ dm, (none : Option ℕ) = some dm ∧ dm ≤ 0) ∨
    best_split [[(0:ℚ)],[(0:ℚ)]] [(0:ℤ),1] = none :=
  claim_C4_amended_leaf_conditions none 2 [[(0:ℚ)],[(0:ℚ)]] [(0:ℤ),1]
    [([[(0:ℚ)],[(0:ℚ)]], [(0:ℤ),1], 0)] rfl leafRecs_const_feature
    ([[(0:ℚ)],[(0:ℚ)]], [(0:ℤ),1], 0) (List.mem_singleton.2 rfl)

end DT
